import Mathlib

/-!
# Verification of `bitset.h` (bowtie)

Shallow embedding of the three bitset classes in `bitset.h`:

* `SyncBitset` / `Bitset` — growable bitsets backed by a heap array of
  `uint32_t` words.  Because `expand` performs `memcpy`/`memset` with byte
  counts that are not always multiples of 4, the heap array is modelled at
  byte granularity: `Mem` is a list of bytes, where `none` stands for an
  uninitialized byte.  With the little-endian `uint32_t` layout of the
  compilation targets, bit `i` of the bit vector is bit `i % 8` of byte
  `i >>> 3` (indeed `i >>> 3 = 4 * (i >>> 5) + ((i % 32) >>> 3)`), so every
  word-level bit access of the source is rendered as the corresponding
  byte-level access.  Out-of-bounds accesses and reads of uninitialized
  bytes are undefined behaviour in the C++ source; they are modelled by
  `Option`, with `none` for a computation that reaches undefined behaviour.
  The mutex of `SyncBitset` has no effect on the sequential semantics
  modelled here, and the `assert`/`assert_lt`/`assert_gt` macros are
  compiled out of release builds, so they do not appear in the model.
  Allocation failure (`bad_alloc` → `exit(1)`) is outside the model:
  `new` is modelled as always succeeding.

* `FixedBitset<LEN>` — fixed-capacity bitset with bookkeeping.  Its storage
  is a fixed array of `(LEN>>5)+1` words that is only ever accessed at word
  granularity, so it is modelled as a list of 32-bit words.

The `while(i >= _sz) expand();` loops are modelled with explicit fuel
(`i + 2` units); `growCap_some` proves that this fuel is always sufficient,
so fuel exhaustion never masks a real behaviour.
-/

/-- Heap bytes backing a `uint32_t` array.  `none` is an uninitialized byte;
initialized bytes hold values `< 256`. -/
abbrev Mem := List (Option Nat)

/-- `memcpy(dst, src, cnt)` writing at offset 0 of `dst`: `none` when either
the source or the destination range is out of bounds (undefined behaviour). -/
def memcpy0 (dst src : Mem) (cnt : Nat) : Option Mem :=
  if cnt ≤ src.length ∧ cnt ≤ dst.length then
    some (src.take cnt ++ dst.drop cnt)
  else none

/-- `memset(m + off, 0, cnt)`: `none` when the range is out of bounds
(undefined behaviour). -/
def memsetZ (m : Mem) (off cnt : Nat) : Option Mem :=
  if off + cnt ≤ m.length then
    some (m.take off ++ List.replicate cnt (some 0) ++ m.drop (off + cnt))
  else none

/-- The state of a `Bitset` / `SyncBitset`: `_sz` (capacity in bits) and the
`_words` array, stored as raw bytes. -/
structure GrowState where
  sz : Nat
  mem : Mem
deriving Repr, DecidableEq

/-- Read bit `i` of the word array: `(_words[i>>5] >> (i & 0x1f)) & 1`,
i.e. bit `i % 8` of byte `i >>> 3`.  `none` models an out-of-bounds or
uninitialized read (undefined behaviour). -/
def GrowState.readBit (s : GrowState) (i : Nat) : Option Bool :=
  match s.mem[i >>> 3]? with
  | some (some b) => some (((b >>> (i % 8)) &&& 1) != 0)
  | _ => none

/-- `Bitset::test` = `SyncBitset::test` = `SyncBitset::testUnsync`:
`if(i < _sz) return (_words[i>>5] >> (i & 0x1f)) & 1 != 0; return false;`
(the mutex in `SyncBitset::test` does not change the sequential result). -/
def GrowState.test (s : GrowState) (i : Nat) : Option Bool :=
  if i < s.sz then s.readBit i else some false

/-- `_words[i >> 5] |= (1 << (i & 0x1f))`: only byte `i >>> 3` changes.
`none` when the byte is out of bounds or uninitialized (the word-sized
read-modify-write of an indeterminate value is undefined behaviour). -/
def GrowState.writeBit (s : GrowState) (i : Nat) : Option GrowState :=
  match s.mem[i >>> 3]? with
  | some (some b) =>
      some { s with mem := s.mem.set (i >>> 3) (some (b ||| (1 <<< (i % 8)))) }
  | _ => none

/-- The `while(i >= _sz) { expand(); }` loop shared by `set`/`setOver` of
both growable classes, parameterized by the class's `expand` and an explicit
fuel (one unit per loop test).  Fuel `i + 2` is always sufficient
(`growCap_some`), so `none` on adequate fuel means `expand` hit undefined
behaviour. -/
def growLoop (ex : GrowState → Option GrowState) : Nat → GrowState → Nat → Option GrowState
  | 0, _, _ => none
  | fuel + 1, s, i =>
      if i < s.sz then some s
      else
        match ex s with
        | some s1 => growLoop ex fuel s1 i
        | none => none

/-- The capacity trajectory of the growth loop alone (pure arithmetic on
`_sz`, same fuel discipline), parameterized by the class's capacity step. -/
def growCap (f : Nat → Nat) : Nat → Nat → Nat → Option Nat
  | 0, _, _ => none
  | fuel + 1, sz, i => if i < sz then some sz else growCap f fuel (f sz) i

namespace Bitset

/-- `Bitset::Bitset(size_t sz)`: `nwords = (sz>>5)+1` words are allocated
and zero-filled, and `_sz = nwords<<5`. -/
def mk (sz : Nat) : GrowState :=
  { sz := ((sz >>> 5) + 1) <<< 5
    mem := List.replicate (((sz >>> 5) + 1) * 4) (some 0) }

/-- The capacity update of `Bitset::expand`: `_sz += (_sz>>1);`
(no alignment of any kind in this class). -/
def nextCap (sz : Nat) : Nat := sz + (sz >>> 1)

/-- `Bitset::expand`: allocate `_sz >> 5` words (uninitialized),
`memcpy(newwords, _words, oldsz >> 3)`, then
`memset(newwords + (oldsz >> 5), 0, oldsz >> 4)`. -/
def expand (s : GrowState) : Option GrowState :=
  (memcpy0 (List.replicate ((nextCap s.sz >>> 5) * 4) none) s.mem (s.sz >>> 3)).bind
    fun m1 =>
      (memsetZ m1 ((s.sz >>> 5) * 4) (s.sz >>> 4)).bind
        fun m2 => some { sz := nextCap s.sz, mem := m2 }

/-- `Bitset::test`. -/
def test (s : GrowState) (i : Nat) : Option Bool := s.test i

/-- `Bitset::set` (its extra debug assertions have no release-build effect,
so its semantics coincides with `setOver`). -/
def set (s : GrowState) (i : Nat) : Option GrowState :=
  (growLoop expand (i + 2) s i).bind fun s1 => s1.writeBit i

/-- `Bitset::setOver`. -/
def setOver (s : GrowState) (i : Nat) : Option GrowState :=
  (growLoop expand (i + 2) s i).bind fun s1 => s1.writeBit i

end Bitset

namespace SyncBitset

/-- `SyncBitset::SyncBitset(size_t sz)` — identical storage setup to
`Bitset::Bitset` (the mutex initialization has no sequential effect). -/
def mk (sz : Nat) : GrowState :=
  { sz := ((sz >>> 5) + 1) <<< 5
    mem := List.replicate (((sz >>> 5) + 1) * 4) (some 0) }

/-- The capacity update of `SyncBitset::expand`:
`_sz += (_sz >> 1); _sz += 7; _sz &= ~0x7;` — add 50% then round up to a
multiple of 8 (clearing the low three bits of `_sz + 7`). -/
def nextCap (sz : Nat) : Nat := ((sz + (sz >>> 1) + 7) >>> 3) <<< 3

/-- `SyncBitset::expand`: allocate `_sz >> 5` words (uninitialized),
`memcpy(newwords, _words, oldsz >> 3)`, then
`memset(newwords + (oldsz >> 5), 0, (_sz - oldsz) >> 3)`. -/
def expand (s : GrowState) : Option GrowState :=
  (memcpy0 (List.replicate ((nextCap s.sz >>> 5) * 4) none) s.mem (s.sz >>> 3)).bind
    fun m1 =>
      (memsetZ m1 ((s.sz >>> 5) * 4) ((nextCap s.sz - s.sz) >>> 3)).bind
        fun m2 => some { sz := nextCap s.sz, mem := m2 }

/-- `SyncBitset::test` (and `testUnsync`, which coincides sequentially). -/
def test (s : GrowState) (i : Nat) : Option Bool := s.test i

/-- `SyncBitset::set` (debug assertions and the mutex have no effect on the
sequential release semantics). -/
def set (s : GrowState) (i : Nat) : Option GrowState :=
  (growLoop expand (i + 2) s i).bind fun s1 => s1.writeBit i

/-- `SyncBitset::setOver`. -/
def setOver (s : GrowState) (i : Nat) : Option GrowState :=
  (growLoop expand (i + 2) s i).bind fun s1 => s1.writeBit i

end SyncBitset

/-- The state of a `FixedBitset<LEN>`: the fixed word array `_words`
(a list of `(LEN>>5)+1` 32-bit words for canonical states), `_cnt` and
`_size`. -/
structure FixedBitset where
  words : List Nat
  cnt : Nat
  size : Nat
deriving Repr, DecidableEq

namespace FixedBitset

/-- `FixedBitset<LEN>()`: `_cnt = 0`, `_size = 0`, and
`memset(_words, 0, ((LEN>>5)+1) * 4)`. -/
def fresh (LEN : Nat) : FixedBitset :=
  { words := List.replicate ((LEN >>> 5) + 1) 0, cnt := 0, size := 0 }

/-- `FixedBitset::clear()`: `memset(_words, 0, ((LEN>>5)+1) * 4)` — the
bookkeeping fields are untouched. -/
def clear (LEN : Nat) (s : FixedBitset) : FixedBitset :=
  { s with words := List.replicate ((LEN >>> 5) + 1) 0 }

/-- `FixedBitset::test`: `(_words[i >> 5] >> (i & 0x1f)) & 1 != 0`.
The `assert_lt(i, LEN)` is compiled out of release builds; the read is
well defined whenever word `i >> 5` lies inside the fixed array, and
`none` (undefined behaviour) otherwise. -/
def test (s : FixedBitset) (i : Nat) : Option Bool :=
  match s.words[i >>> 5]? with
  | some w => some (((w >>> (i % 32)) &&& 1) != 0)
  | none => none

/-- `FixedBitset::set`: `_words[i >> 5] |= (1 << (i & 0x1f)); _cnt++;
if(i >= _size) _size = i+1;` (release semantics; the debug assertions are
compiled out). -/
def set (s : FixedBitset) (i : Nat) : Option FixedBitset :=
  match s.words[i >>> 5]? with
  | some w =>
      some { words := s.words.set (i >>> 5) (w ||| (1 <<< (i % 32)))
             cnt := s.cnt + 1
             size := if s.size ≤ i then i + 1 else s.size }
  | none => none

/-- `FixedBitset::setOver` — identical body to `set` in release builds
(only the "not already set" debug assertion differs). -/
def setOver (s : FixedBitset) (i : Nat) : Option FixedBitset :=
  match s.words[i >>> 5]? with
  | some w =>
      some { words := s.words.set (i >>> 5) (w ||| (1 <<< (i % 32)))
             cnt := s.cnt + 1
             size := if s.size ≤ i then i + 1 else s.size }
  | none => none

/-- `FixedBitset::count()`. -/
def count (s : FixedBitset) : Nat := s.cnt

/-- `FixedBitset::operator==`: word-for-word comparison over all
`(LEN>>5)+1` words of the fixed array. -/
def beq (LEN : Nat) (a b : FixedBitset) : Bool :=
  (List.range ((LEN >>> 5) + 1)).all fun k => a.words.getD k 0 == b.words.getD k 0

/-- `FixedBitset::operator!=`: returns `true` at the first differing word. -/
def bne (LEN : Nat) (a b : FixedBitset) : Bool :=
  (List.range ((LEN >>> 5) + 1)).any fun k => a.words.getD k 0 != b.words.getD k 0

/-- Characters produced by `str()`'s loop for bits `n-1` down to `0`
(most significant first); `none` if some `test` read is out of bounds. -/
def strLoop (s : FixedBitset) : Nat → Option (List Char)
  | 0 => some []
  | n + 1 =>
      match s.test n with
      | some b => (strLoop s n).map fun cs => (if b then '1' else '0') :: cs
      | none => none

/-- `FixedBitset::str()`: bits from `size()-1` down to `0`, rendered
'1'/'0', most significant bit first. -/
def str (s : FixedBitset) : Option String :=
  (strLoop s s.size).map fun cs => String.mk cs

end FixedBitset

/-- One call against a `FixedBitset<LEN>`. -/
inductive FOp where
  | fset (i : Nat)
  | fsetOver (i : Nat)
  | fclear
deriving Repr, DecidableEq

/-- Apply one call. -/
def applyFOp (LEN : Nat) (s : FixedBitset) : FOp → Option FixedBitset
  | .fset i => s.set i
  | .fsetOver i => s.setOver i
  | .fclear => some (s.clear LEN)

/-- Apply a sequence of calls. -/
def applyFOps (LEN : Nat) (s : FixedBitset) : List FOp → Option FixedBitset
  | [] => some s
  | op :: ops => (applyFOp LEN s op).bind fun s1 => applyFOps LEN s1 ops

/-- Whether a call is a `set`/`setOver` (as opposed to `clear`). -/
def FOp.isSetOp : FOp → Bool
  | .fclear => false
  | _ => true

/-- Number of `set`/`setOver` calls in a sequence. -/
def countSetOps (ops : List FOp) : Nat := ops.countP FOp.isSetOp

/-- Modelled from the spec: the growth step as §4.1 words it — "increase
`capacity_bits` by 50% (rounded up to a multiple of 8, then up to a word
boundary)".  Used only to compare the spec's description with the source's
`nextCap` functions. -/
def specGrowStep (sz : Nat) : Nat :=
  (((sz + (sz >>> 1)) + 7) / 8 * 8 + 31) / 32 * 32

/-- Claim C1 (code_bug evidence): on a growable bitset constructed with size
hint 0 (initial capacity 32 bits, one word), setting bit 32 — which the
claim says must succeed, with `test` then reporting it — instead reaches
undefined behaviour: `expand` sets the capacity to 48 bits but allocates
only `48 >> 5 = 1` word (4 bytes), and then zero-fills 2 bytes past the end
of that allocation.  Both classes, and both `set` and `setOver`, fault. -/
theorem growable_set_overflow :
    Bitset.setOver (Bitset.mk 0) 32 = none ∧
    Bitset.set (Bitset.mk 0) 32 = none ∧
    SyncBitset.setOver (SyncBitset.mk 0) 32 = none ∧
    SyncBitset.set (SyncBitset.mk 0) 32 = none := by decide

/-- Claim C2 (code_bug evidence): one growth step from the reachable
capacity 32 sets the capacity to 48 — not a multiple of 32 — while the
allocation is `48 >>> 5 = 1` word instead of `ceil(48/32) = 2`; the step
itself already writes out of bounds (`expand` returns `none`). -/
theorem capacity_word_invariant_broken :
    (Bitset.mk 0).sz = 32 ∧
    Bitset.nextCap 32 = 48 ∧
    SyncBitset.nextCap 32 = 48 ∧
    48 % 32 ≠ 0 ∧
    (48 >>> 5) ≠ (48 + 31) / 32 ∧
    Bitset.expand (Bitset.mk 0) = none := by decide

/-- Claim C3 (counterexample): the spec's growth step (50% + round up to a
multiple of 8 + round up to a word boundary) predicts capacity 64 after one
step from the reachable capacity 32, but both classes compute 48; moreover
the step from capacity 32 does not "copy old words and zero-fill the new
words" — it overruns its truncated allocation (`expand` returns `none`). -/
theorem growth_rounding_counterexample :
    (Bitset.mk 0).sz = 32 ∧
    Bitset.nextCap 32 = 48 ∧
    SyncBitset.nextCap 32 = 48 ∧
    specGrowStep 32 = 64 ∧
    (48 : Nat) ≠ 64 ∧
    SyncBitset.expand (SyncBitset.mk 0) = none := by decide

/-! ## Helper lemmas on the growth machinery -/

theorem growCap_succ (f : Nat → Nat) (fuel sz i : Nat) :
    growCap f (fuel + 1) sz i = if i < sz then some sz else growCap f fuel (f sz) i := rfl

theorem growLoop_succ (ex : GrowState → Option GrowState) (fuel : Nat) (s : GrowState) (i : Nat) :
    growLoop ex (fuel + 1) s i =
      if i < s.sz then some s
      else
        match ex s with
        | some s1 => growLoop ex fuel s1 i
        | none => none := rfl

theorem bitset_nextCap_le (sz : Nat) : sz ≤ Bitset.nextCap sz := by
  unfold Bitset.nextCap
  omega

theorem bitset_nextCap_lt (sz : Nat) (h : 2 ≤ sz) : sz < Bitset.nextCap sz := by
  unfold Bitset.nextCap
  rw [Nat.shiftRight_eq_div_pow]
  have h1 : (2 : Nat) ^ 1 = 2 := rfl
  rw [h1]
  omega

theorem sync_nextCap_le (sz : Nat) : sz ≤ SyncBitset.nextCap sz := by
  unfold SyncBitset.nextCap
  rw [Nat.shiftRight_eq_div_pow, Nat.shiftRight_eq_div_pow, Nat.shiftLeft_eq]
  have h1 : (2 : Nat) ^ 1 = 2 := rfl
  have h3 : (2 : Nat) ^ 3 = 8 := rfl
  rw [h1, h3]
  omega

theorem sync_nextCap_lt (sz : Nat) (h : 2 ≤ sz) : sz < SyncBitset.nextCap sz := by
  unfold SyncBitset.nextCap
  rw [Nat.shiftRight_eq_div_pow, Nat.shiftRight_eq_div_pow, Nat.shiftLeft_eq]
  have h1 : (2 : Nat) ^ 1 = 2 := rfl
  have h3 : (2 : Nat) ^ 3 = 8 := rfl
  rw [h1, h3]
  omega

theorem sync_nextCap_align (sz : Nat) : SyncBitset.nextCap sz % 8 = 0 := by
  unfold SyncBitset.nextCap
  rw [Nat.shiftRight_eq_div_pow, Nat.shiftRight_eq_div_pow, Nat.shiftLeft_eq]
  have h1 : (2 : Nat) ^ 1 = 2 := rfl
  have h3 : (2 : Nat) ^ 3 = 8 := rfl
  rw [h1, h3]
  omega

theorem memcpy0_length (dst src : Mem) (cnt : Nat) (m : Mem)
    (h : memcpy0 dst src cnt = some m) : m.length = dst.length := by
  by_cases hc : cnt ≤ src.length ∧ cnt ≤ dst.length
  · unfold memcpy0 at h
    rw [if_pos hc] at h
    cases h
    simp only [List.length_append, List.length_take, List.length_drop]
    omega
  · unfold memcpy0 at h
    rw [if_neg hc] at h
    cases h

theorem memsetZ_length (m0 : Mem) (off cnt : Nat) (m : Mem)
    (h : memsetZ m0 off cnt = some m) : m.length = m0.length := by
  by_cases hc : off + cnt ≤ m0.length
  · unfold memsetZ at h
    rw [if_pos hc] at h
    cases h
    simp only [List.length_append, List.length_take, List.length_drop,
      List.length_replicate]
    omega
  · unfold memsetZ at h
    rw [if_neg hc] at h
    cases h

theorem bitset_expand_spec (s s1 : GrowState) (h : Bitset.expand s = some s1) :
    s1.sz = Bitset.nextCap s.sz ∧ s1.mem.length = (Bitset.nextCap s.sz >>> 5) * 4 := by
  unfold Bitset.expand at h
  rw [Option.bind_eq_some] at h
  obtain ⟨m1, hm1, h⟩ := h
  rw [Option.bind_eq_some] at h
  obtain ⟨m2, hm2, h⟩ := h
  cases h
  have l1 := memcpy0_length _ _ _ _ hm1
  have l2 := memsetZ_length _ _ _ _ hm2
  rw [List.length_replicate] at l1
  exact ⟨rfl, by rw [l2, l1]⟩

theorem sync_expand_spec (s s1 : GrowState) (h : SyncBitset.expand s = some s1) :
    s1.sz = SyncBitset.nextCap s.sz ∧ s1.mem.length = (SyncBitset.nextCap s.sz >>> 5) * 4 := by
  unfold SyncBitset.expand at h
  rw [Option.bind_eq_some] at h
  obtain ⟨m1, hm1, h⟩ := h
  rw [Option.bind_eq_some] at h
  obtain ⟨m2, hm2, h⟩ := h
  cases h
  have l1 := memcpy0_length _ _ _ _ hm1
  have l2 := memsetZ_length _ _ _ _ hm2
  rw [List.length_replicate] at l1
  exact ⟨rfl, by rw [l2, l1]⟩

theorem growCap_some (f : Nat → Nat) (hf : ∀ m, 2 ≤ m → m + 1 ≤ f m ∧ 2 ≤ f m) :
    ∀ (fuel sz i : Nat), 2 ≤ sz → i < sz + fuel →
      ∃ c, growCap f (fuel + 1) sz i = some c ∧ i < c ∧ sz ≤ c := by
  intro fuel
  induction fuel with
  | zero =>
      intro sz i h2 hi
      have hlt : i < sz := by omega
      exact ⟨sz, by rw [growCap_succ, if_pos hlt], hlt, le_rfl⟩
  | succ fuel ih =>
      intro sz i h2 hi
      by_cases hlt : i < sz
      · exact ⟨sz, by rw [growCap_succ, if_pos hlt], hlt, le_rfl⟩
      · obtain ⟨hstep, hf2⟩ := hf sz h2
        obtain ⟨c, hc, hic, hsc⟩ := ih (f sz) i hf2 (by omega)
        exact ⟨c, by rw [growCap_succ, if_neg hlt]; exact hc, hic, by omega⟩

theorem growLoop_sz_le (ex : GrowState → Option GrowState)
    (hex : ∀ t t1, ex t = some t1 → t.sz ≤ t1.sz) :
    ∀ (fuel : Nat) (s : GrowState) (i : Nat) (s1 : GrowState),
      growLoop ex fuel s i = some s1 → s.sz ≤ s1.sz := by
  intro fuel
  induction fuel with
  | zero =>
      intro s i s1 h
      cases h
  | succ fuel ih =>
      intro s i s1 h
      rw [growLoop_succ] at h
      by_cases hlt : i < s.sz
      · rw [if_pos hlt] at h
        cases h
        exact le_rfl
      · rw [if_neg hlt] at h
        cases hex2 : ex s with
        | none => rw [hex2] at h; cases h
        | some s2 =>
            rw [hex2] at h
            exact le_trans (hex s s2 hex2) (ih s2 i s1 h)

theorem growLoop_cap (ex : GrowState → Option GrowState) (f : Nat → Nat)
    (hex : ∀ t t1, ex t = some t1 → t1.sz = f t.sz) :
    ∀ (fuel : Nat) (s : GrowState) (i : Nat) (s1 : GrowState),
      growLoop ex fuel s i = some s1 → growCap f fuel s.sz i = some s1.sz := by
  intro fuel
  induction fuel with
  | zero =>
      intro s i s1 h
      cases h
  | succ fuel ih =>
      intro s i s1 h
      rw [growLoop_succ] at h
      rw [growCap_succ]
      by_cases hlt : i < s.sz
      · rw [if_pos hlt] at h
        cases h
        rw [if_pos hlt]
      · rw [if_neg hlt] at h
        rw [if_neg hlt]
        cases hex2 : ex s with
        | none => rw [hex2] at h; cases h
        | some s2 =>
            rw [hex2] at h
            have := ih s2 i s1 h
            rwa [hex s s2 hex2] at this

theorem GrowState.writeBit_sz (s : GrowState) (i : Nat) (s1 : GrowState)
    (h : s.writeBit i = some s1) : s1.sz = s.sz := by
  unfold GrowState.writeBit at h
  cases hb : s.mem[i >>> 3]? with
  | none => rw [hb] at h; cases h
  | some ob =>
      cases ob with
      | none => rw [hb] at h; cases h
      | some b => rw [hb] at h; cases h; rfl

/-- Claim C10: a growable bitset (either class) constructed with size hint
`sz` has initial capacity exactly `32 * (sz/32 + 1)` bits — strictly more
than `sz` and at least 32 — and every bit tests false (in-capacity bits are
zero-initialized; out-of-capacity probes return false). -/
theorem growable_constructor_spec (n i : Nat) :
    (Bitset.mk n).sz = 32 * (n / 32 + 1) ∧
    n < (Bitset.mk n).sz ∧
    32 ≤ (Bitset.mk n).sz ∧
    (Bitset.mk n).test i = some false ∧
    SyncBitset.mk n = Bitset.mk n := by
  have hsz : (Bitset.mk n).sz = 32 * (n / 32 + 1) := by
    show ((n >>> 5) + 1) <<< 5 = 32 * (n / 32 + 1)
    rw [Nat.shiftRight_eq_div_pow, Nat.shiftLeft_eq]
    have h5 : (2 : Nat) ^ 5 = 32 := rfl
    rw [h5]
    omega
  refine ⟨hsz, by rw [hsz]; omega, by rw [hsz]; omega, ?_, rfl⟩
  unfold GrowState.test
  by_cases hi : i < (Bitset.mk n).sz
  · rw [if_pos hi]
    unfold GrowState.readBit
    have hib : i >>> 3 < ((n >>> 5) + 1) * 4 := by
      rw [hsz] at hi
      rw [Nat.shiftRight_eq_div_pow, Nat.shiftRight_eq_div_pow]
      have h5 : (2 : Nat) ^ 5 = 32 := rfl
      have h3 : (2 : Nat) ^ 3 = 8 := rfl
      rw [h5, h3]
      omega
    show (match (List.replicate (((n >>> 5) + 1) * 4) (some 0 : Option Nat))[i >>> 3]? with
      | some (some b) => some (((b >>> (i % 8)) &&& 1) != 0)
      | _ => none) = some false
    rw [List.getElem?_replicate, if_pos hib]
    simp
  · rw [if_neg hi]

/-- Claim C4: for any capacity at least 2 (every reachable capacity is at
least 32), each `expand` iteration strictly increases the capacity, the
`while(i >= _sz)` loop of `set`/`setOver` terminates — fuel `i + 2` always
suffices for the capacity iteration, which ends above `i` — and a
successful `set`/`setOver` never decreases `_sz` (`test` does not modify
the state at all, being a pure function in this model). -/
theorem growth_termination_monotone (i sz : Nat) (h2 : 2 ≤ sz) :
    (sz < Bitset.nextCap sz ∧ sz < SyncBitset.nextCap sz) ∧
    (∃ c, growCap Bitset.nextCap (i + 2) sz i = some c ∧ i < c ∧ sz ≤ c) ∧
    (∃ c, growCap SyncBitset.nextCap (i + 2) sz i = some c ∧ i < c ∧ sz ≤ c) ∧
    (∀ s s1 : GrowState, s.sz = sz → Bitset.set s i = some s1 → sz ≤ s1.sz) ∧
    (∀ s s1 : GrowState, s.sz = sz → Bitset.setOver s i = some s1 → sz ≤ s1.sz) ∧
    (∀ s s1 : GrowState, s.sz = sz → SyncBitset.set s i = some s1 → sz ≤ s1.sz) ∧
    (∀ s s1 : GrowState, s.sz = sz → SyncBitset.setOver s i = some s1 → sz ≤ s1.sz) ∧
    (∀ m : Nat, 32 ≤ (Bitset.mk m).sz ∧ 32 ≤ (SyncBitset.mk m).sz) := by
  have hfB : ∀ m, 2 ≤ m → m + 1 ≤ Bitset.nextCap m ∧ 2 ≤ Bitset.nextCap m := by
    intro m hm
    have := bitset_nextCap_lt m hm
    exact ⟨by omega, by omega⟩
  have hfS : ∀ m, 2 ≤ m → m + 1 ≤ SyncBitset.nextCap m ∧ 2 ≤ SyncBitset.nextCap m := by
    intro m hm
    have := sync_nextCap_lt m hm
    exact ⟨by omega, by omega⟩
  have hexB : ∀ t t1 : GrowState, Bitset.expand t = some t1 → t.sz ≤ t1.sz := by
    intro t t1 ht
    rw [(bitset_expand_spec t t1 ht).1]
    exact bitset_nextCap_le t.sz
  have hexS : ∀ t t1 : GrowState, SyncBitset.expand t = some t1 → t.sz ≤ t1.sz := by
    intro t t1 ht
    rw [(sync_expand_spec t t1 ht).1]
    exact sync_nextCap_le t.sz
  have hsetB : ∀ s s1 : GrowState, s.sz = sz → Bitset.set s i = some s1 → sz ≤ s1.sz := by
    intro s s1 hs h
    unfold Bitset.set at h
    rw [Option.bind_eq_some] at h
    obtain ⟨s2, hg, hw⟩ := h
    rw [GrowState.writeBit_sz s2 i s1 hw]
    rw [← hs]
    exact growLoop_sz_le Bitset.expand hexB (i + 2) s i s2 hg
  have hsetS : ∀ s s1 : GrowState, s.sz = sz → SyncBitset.set s i = some s1 → sz ≤ s1.sz := by
    intro s s1 hs h
    unfold SyncBitset.set at h
    rw [Option.bind_eq_some] at h
    obtain ⟨s2, hg, hw⟩ := h
    rw [GrowState.writeBit_sz s2 i s1 hw]
    rw [← hs]
    exact growLoop_sz_le SyncBitset.expand hexS (i + 2) s i s2 hg
  refine ⟨⟨bitset_nextCap_lt sz h2, sync_nextCap_lt sz h2⟩, ?_, ?_, hsetB, ?_, hsetS, ?_, ?_⟩
  · exact growCap_some Bitset.nextCap hfB (i + 1) sz i h2 (by omega)
  · exact growCap_some SyncBitset.nextCap hfS (i + 1) sz i h2 (by omega)
  · exact hsetB
  · exact hsetS
  · intro m
    constructor
    · show 32 ≤ ((m >>> 5) + 1) <<< 5
      rw [Nat.shiftLeft_eq]
      have h5 : (2 : Nat) ^ 5 = 32 := rfl
      rw [h5]
      omega
    · show 32 ≤ ((m >>> 5) + 1) <<< 5
      rw [Nat.shiftLeft_eq]
      have h5 : (2 : Nat) ^ 5 = 32 := rfl
      rw [h5]
      omega

/-- Witness for `growth_termination_monotone` at `i = 0`, `sz = 32`. -/
theorem growth_termination_monotone_w :
    2 ≤ 32 ∧ 32 < Bitset.nextCap 32 :=
  ⟨by decide, (growth_termination_monotone 0 32 (by decide)).1.1⟩

/-- Claim C3 (amended): the capacity of a growable bitset is repeatedly
increased by 50% — `SyncBitset` additionally rounds each step up to a
multiple of 8, `Bitset` applies no rounding, and neither rounds up to a
word boundary — until `i` fits, and each successful growth step allocates
`floor(new_capacity / 32)` words (the byte-level copy and zero-fill can
overrun this truncated allocation, in which case the step faults). -/
theorem growth_loop_characterization :
    (∀ sz, SyncBitset.nextCap sz % 8 = 0) ∧
    (∀ (fuel : Nat) (s : GrowState) (i : Nat) (s1 : GrowState),
        growLoop Bitset.expand fuel s i = some s1 →
          growCap Bitset.nextCap fuel s.sz i = some s1.sz) ∧
    (∀ (fuel : Nat) (s : GrowState) (i : Nat) (s1 : GrowState),
        growLoop SyncBitset.expand fuel s i = some s1 →
          growCap SyncBitset.nextCap fuel s.sz i = some s1.sz) ∧
    (∀ (i sz : Nat), 2 ≤ sz →
        ∃ c, growCap Bitset.nextCap (i + 2) sz i = some c ∧ i < c ∧ sz ≤ c) ∧
    (∀ (i sz : Nat), 2 ≤ sz →
        ∃ c, growCap SyncBitset.nextCap (i + 2) sz i = some c ∧ i < c ∧ sz ≤ c) ∧
    (∀ s s1 : GrowState, Bitset.expand s = some s1 →
        s1.sz = Bitset.nextCap s.sz ∧ s1.mem.length = (Bitset.nextCap s.sz >>> 5) * 4) ∧
    (∀ s s1 : GrowState, SyncBitset.expand s = some s1 →
        s1.sz = SyncBitset.nextCap s.sz ∧ s1.mem.length = (SyncBitset.nextCap s.sz >>> 5) * 4) := by
  have hfB : ∀ m, 2 ≤ m → m + 1 ≤ Bitset.nextCap m ∧ 2 ≤ Bitset.nextCap m := by
    intro m hm
    have := bitset_nextCap_lt m hm
    exact ⟨by omega, by omega⟩
  have hfS : ∀ m, 2 ≤ m → m + 1 ≤ SyncBitset.nextCap m ∧ 2 ≤ SyncBitset.nextCap m := by
    intro m hm
    have := sync_nextCap_lt m hm
    exact ⟨by omega, by omega⟩
  refine ⟨sync_nextCap_align, ?_, ?_, ?_, ?_, bitset_expand_spec, sync_expand_spec⟩
  · intro fuel s i s1 h
    exact growLoop_cap Bitset.expand Bitset.nextCap
      (fun t t1 ht => (bitset_expand_spec t t1 ht).1) fuel s i s1 h
  · intro fuel s i s1 h
    exact growLoop_cap SyncBitset.expand SyncBitset.nextCap
      (fun t t1 ht => (sync_expand_spec t t1 ht).1) fuel s i s1 h
  · intro i sz h2
    exact growCap_some Bitset.nextCap hfB (i + 1) sz i h2 (by omega)
  · intro i sz h2
    exact growCap_some SyncBitset.nextCap hfS (i + 1) sz i h2 (by omega)

/-- Witness for `growth_loop_characterization`: the capacity tracking
conjunct applied to the concrete run `growLoop Bitset.expand 1 (Bitset.mk 0) 0`. -/
theorem growth_loop_characterization_w :
    growCap Bitset.nextCap 1 (Bitset.mk 0).sz 0 = some (Bitset.mk 0).sz :=
  growth_loop_characterization.2.1 1 (Bitset.mk 0) 0 (Bitset.mk 0) (by decide)

/-! ## Helper lemmas on `FixedBitset` -/

theorem FixedBitset.strLoop_spec (s : FixedBitset) :
    ∀ (n : Nat) (cs : List Char), FixedBitset.strLoop s n = some cs →
      cs.length = n ∧ ∀ (j : Nat) (b : Bool), j < n → s.test j = some b →
        cs[n - 1 - j]? = some (if b then '1' else '0') := by
  intro n
  induction n with
  | zero =>
      intro cs h
      cases h
      exact ⟨rfl, fun j b hj _ => absurd hj (by omega)⟩
  | succ n ih =>
      intro cs h
      unfold FixedBitset.strLoop at h
      cases ht : s.test n with
      | none => rw [ht] at h; cases h
      | some b0 =>
          rw [ht] at h
          cases hsl : FixedBitset.strLoop s n with
          | none => rw [hsl] at h; cases h
          | some cs0 =>
          rw [hsl] at h
          cases h
          obtain ⟨hlen, hidx⟩ := ih cs0 hsl
          refine ⟨by simp [hlen], ?_⟩
          intro j b hj htj
          by_cases hjn : j = n
          · subst hjn
            rw [ht] at htj
            cases htj
            have h0 : j + 1 - 1 - j = 0 := by omega
            rw [h0, List.getElem?_cons_zero]
          · have hjlt : j < n := by omega
            have hix : n + 1 - 1 - j = (n - 1 - j) + 1 := by omega
            rw [hix, List.getElem?_cons_succ]
            exact hidx j b hjlt htj

theorem list_any_bne_eq_not_all_beq (l : List Nat) (f g : Nat → Nat) :
    (l.any fun k => f k != g k) = !(l.all fun k => f k == g k) := by
  induction l with
  | nil => rfl
  | cons x l ih =>
      rw [List.any_cons, List.all_cons, Bool.not_and, ih]
      rfl

theorem FixedBitset.beq_iff_words (LEN : Nat) (a b : FixedBitset)
    (ha : a.words.length = (LEN >>> 5) + 1) (hb : b.words.length = (LEN >>> 5) + 1) :
    FixedBitset.beq LEN a b = true ↔ a.words = b.words := by
  unfold FixedBitset.beq
  rw [List.all_eq_true]
  constructor
  · intro h
    refine List.ext_getElem (by rw [ha, hb]) ?_
    intro k h1 h2
    have hk : k < (LEN >>> 5) + 1 := by rw [ha] at h1; exact h1
    have := h k (List.mem_range.mpr hk)
    rw [beq_iff_eq] at this
    rw [List.getD_eq_getElem a.words 0 h1, List.getD_eq_getElem b.words 0 h2] at this
    exact this
  · intro h k _
    rw [h]
    exact beq_self_eq_true _

theorem word_eq_of_bits (wa wb : Nat) (ha : wa < 2 ^ 32) (hb : wb < 2 ^ 32)
    (h : ∀ r, r < 32 → ((((wa >>> r) &&& 1) != 0) = (((wb >>> r) &&& 1) != 0))) :
    wa = wb := by
  apply Nat.eq_of_testBit_eq
  intro r
  by_cases hr : r < 32
  · have hbit := h r hr
    rw [Nat.and_one_is_mod, Nat.and_one_is_mod, Nat.shiftRight_eq_div_pow,
      Nat.shiftRight_eq_div_pow] at hbit
    rw [Nat.testBit_to_div_mod, Nat.testBit_to_div_mod]
    have hxy : wa / 2 ^ r % 2 = wb / 2 ^ r % 2 := by
      have hiff : (wa / 2 ^ r % 2 ≠ 0) ↔ (wb / 2 ^ r % 2 ≠ 0) := by
        rw [← bne_iff_ne, ← bne_iff_ne, hbit]
      have h1 : wa / 2 ^ r % 2 < 2 := Nat.mod_lt _ (by omega)
      have h2 : wb / 2 ^ r % 2 < 2 := Nat.mod_lt _ (by omega)
      by_cases hz : wa / 2 ^ r % 2 = 0
      · have hz2 : wb / 2 ^ r % 2 = 0 := by
          by_contra hnz
          exact (hiff.mpr hnz) hz
        omega
      · have hz2 := hiff.mp hz
        omega
    rw [hxy]
  · have hra : wa < 2 ^ r := lt_of_lt_of_le ha (Nat.pow_le_pow_right (by omega) (by omega))
    have hrb : wb < 2 ^ r := lt_of_lt_of_le hb (Nat.pow_le_pow_right (by omega) (by omega))
    rw [Nat.testBit_lt_two_pow hra, Nat.testBit_lt_two_pow hrb]

/-! ## Theorems on `FixedBitset` claims -/

/-- Claim C6: `FixedBitset::clear()` zeroes all words, so every subsequent
`test(i)` with `i < LEN` returns false, while `count` and `size` are left
unchanged. -/
theorem clear_zeroes_preserves_bookkeeping (LEN : Nat) (s : FixedBitset) (i : Nat)
    (h : i < LEN) :
    (s.clear LEN).test i = some false ∧
    (s.clear LEN).count = s.count ∧
    (s.clear LEN).size = s.size := by
  refine ⟨?_, rfl, rfl⟩
  have hib : i >>> 5 < (LEN >>> 5) + 1 := by
    rw [Nat.shiftRight_eq_div_pow, Nat.shiftRight_eq_div_pow]
    have h5 : (2 : Nat) ^ 5 = 32 := rfl
    rw [h5]
    omega
  show (match (List.replicate ((LEN >>> 5) + 1) (0 : Nat))[i >>> 5]? with
    | some w => some (((w >>> (i % 32)) &&& 1) != 0)
    | none => none) = some false
  rw [List.getElem?_replicate, if_pos hib]
  simp

/-- Witness for `clear_zeroes_preserves_bookkeeping` at `LEN = 8`, `i = 0`. -/
theorem clear_zeroes_preserves_bookkeeping_w :
    0 < 8 ∧ ((FixedBitset.fresh 8).clear 8).test 0 = some false :=
  ⟨by decide, (clear_zeroes_preserves_bookkeeping 8 (FixedBitset.fresh 8) 0 (by decide)).1⟩

/-- Claim C5 (counterexample): two `setOver(0)` calls on a fresh
`FixedBitset<8>` leave `count() = 2`, yet only one bit was ever set to 1 —
`count` is the number of set calls, not the number of bits ever set. -/
theorem count_vs_bits_ever_set :
    ((FixedBitset.fresh 8).setOver 0).bind (fun t => t.setOver 0) =
      some { words := [1], cnt := 2, size := 1 } ∧
    ({ words := [1], cnt := 2, size := 1 } : FixedBitset).count = 2 ∧
    ((List.range 8).countP fun j =>
        ({ words := [1], cnt := 2, size := 1 } : FixedBitset).test j == some true) = 1 ∧
    (2 : Nat) ≠ 1 := by decide

/-- Claim C5 (amended): `FixedBitset::count()` returns the total number of
`set`/`setOver` calls performed since construction (a bit set twice is
counted twice, and `clear()` does not reset the count), and is
monotonically non-decreasing across any sequence of operations. -/
theorem count_counts_calls (LEN : Nat) (s : FixedBitset) (ops : List FOp)
    (s1 : FixedBitset) (h : applyFOps LEN s ops = some s1) :
    s1.count = s.count + countSetOps ops ∧ s.count ≤ s1.count := by
  suffices H : ∀ (ops : List FOp) (s s1 : FixedBitset),
      applyFOps LEN s ops = some s1 → s1.cnt = s.cnt + countSetOps ops by
    have hc := H ops s s1 h
    exact ⟨hc, by unfold FixedBitset.count; omega⟩
  intro ops
  induction ops with
  | nil =>
      intro s s1 h
      cases h
      simp [countSetOps]
  | cons op ops ih =>
      intro s s1 h
      unfold applyFOps at h
      rw [Option.bind_eq_some] at h
      obtain ⟨s2, hop, hrest⟩ := h
      have hcnt : s2.cnt = s.cnt + (if FOp.isSetOp op then 1 else 0) := by
        cases op with
        | fset i =>
            simp only [applyFOp] at hop
            unfold FixedBitset.set at hop
            cases hw : s.words[i >>> 5]? with
            | none => rw [hw] at hop; cases hop
            | some w =>
                rw [hw] at hop
                cases hop
                simp [FOp.isSetOp]
        | fsetOver i =>
            simp only [applyFOp] at hop
            unfold FixedBitset.setOver at hop
            cases hw : s.words[i >>> 5]? with
            | none => rw [hw] at hop; cases hop
            | some w =>
                rw [hw] at hop
                cases hop
                simp [FOp.isSetOp]
        | fclear =>
            simp only [applyFOp] at hop
            cases hop
            simp [FOp.isSetOp, FixedBitset.clear]
      have h2 := ih s2 s1 hrest
      rw [h2, hcnt]
      unfold countSetOps
      rw [List.countP_cons]
      by_cases hso : FOp.isSetOp op
      · rw [if_pos hso]
        omega
      · rw [if_neg hso]
        omega

/-- Witness for `count_counts_calls`: one `setOver(0)` on a fresh
`FixedBitset<8>`. -/
theorem count_counts_calls_w :
    ({ words := [1], cnt := 1, size := 1 } : FixedBitset).count =
      (FixedBitset.fresh 8).count + countSetOps [FOp.fsetOver 0] ∧
    (FixedBitset.fresh 8).count ≤ ({ words := [1], cnt := 1, size := 1 } : FixedBitset).count :=
  count_counts_calls 8 (FixedBitset.fresh 8) [FOp.fsetOver 0]
    { words := [1], cnt := 1, size := 1 } (by decide)

/-- Claim C7: on a fresh `FixedBitset<8>`, after `set(3)` and `set(7)`:
`count() = 2`, `size() = 8` and `str() = "10001000"`; in general `str()`
renders the bits from `size()-1` down to `0`, most significant first
(character at position `size-1-j` reflects bit `j`), its length is
`size()`, and size 0 yields the empty string. -/
theorem fixed_bitset_str_spec :
    ((FixedBitset.fresh 8).set 3).bind (fun t => t.set 7) =
      some { words := [136], cnt := 2, size := 8 } ∧
    ({ words := [136], cnt := 2, size := 8 } : FixedBitset).count = 2 ∧
    ({ words := [136], cnt := 2, size := 8 } : FixedBitset).size = 8 ∧
    ({ words := [136], cnt := 2, size := 8 } : FixedBitset).str = some "10001000" ∧
    (∀ s : FixedBitset, s.size = 0 → s.str = some "") ∧
    (∀ (s : FixedBitset) (cs : List Char), FixedBitset.strLoop s s.size = some cs →
      cs.length = s.size ∧ ∀ (j : Nat) (b : Bool), j < s.size → s.test j = some b →
        cs[s.size - 1 - j]? = some (if b then '1' else '0')) := by
  refine ⟨by decide, by decide, by decide, by decide, ?_,
    fun s => FixedBitset.strLoop_spec s s.size⟩
  intro s h0
  unfold FixedBitset.str
  rw [h0]
  rfl

/-- Witness for `fixed_bitset_str_spec`: the empty-size clause at a fresh
`FixedBitset<0>`. -/
theorem fixed_bitset_str_spec_w :
    (FixedBitset.fresh 0).str = some "" :=
  fixed_bitset_str_spec.2.2.2.2.1 (FixedBitset.fresh 0) rfl

/-- Claim C8: `FixedBitset::operator==` compares word-for-word across the
entire fixed array, so (given canonical word-array length and 32-bit
words) two instances are `==` exactly when all their bits agree — hence
instances with identical sets of set bits compare equal no matter which
calls produced them, and instances differing in one bit compare unequal —
`operator==` ignores the `cnt`/`size` bookkeeping entirely, and
`operator!=` is exactly the negation of `operator==`. -/
theorem fixed_eq_words_iff (LEN : Nat) (a b : FixedBitset)
    (ha : a.words.length = (LEN >>> 5) + 1) (hb : b.words.length = (LEN >>> 5) + 1)
    (ha32 : ∀ w ∈ a.words, w < 2 ^ 32) (hb32 : ∀ w ∈ b.words, w < 2 ^ 32) :
    (FixedBitset.beq LEN a b = true ↔
      ∀ i, i < 32 * ((LEN >>> 5) + 1) → a.test i = b.test i) ∧
    FixedBitset.bne LEN a b = !FixedBitset.beq LEN a b ∧
    (∀ c d : FixedBitset, c.words = d.words → FixedBitset.beq LEN c d = true) := by
  refine ⟨?_, ?_, ?_⟩
  · rw [FixedBitset.beq_iff_words LEN a b ha hb]
    constructor
    · intro h i _
      unfold FixedBitset.test
      rw [h]
    · intro h
      refine List.ext_getElem (by rw [ha, hb]) ?_
      intro k h1 h2
      apply word_eq_of_bits _ _ (ha32 _ (List.getElem_mem h1)) (hb32 _ (List.getElem_mem h2))
      intro r hr
      have hi : 32 * k + r < 32 * ((LEN >>> 5) + 1) := by
        rw [ha] at h1
        omega
      have htest := h (32 * k + r) hi
      have hidx : (32 * k + r) >>> 5 = k := by
        rw [Nat.shiftRight_eq_div_pow]
        have h5 : (2 : Nat) ^ 5 = 32 := rfl
        rw [h5]
        omega
      have hmod : (32 * k + r) % 32 = r := by omega
      unfold FixedBitset.test at htest
      rw [hidx, hmod, List.getElem?_eq_getElem h1, List.getElem?_eq_getElem h2] at htest
      exact Option.some.inj htest
  · unfold FixedBitset.bne FixedBitset.beq
    exact list_any_bne_eq_not_all_beq (List.range ((LEN >>> 5) + 1))
      (fun k => a.words.getD k 0) (fun k => b.words.getD k 0)
  · intro c d h
    unfold FixedBitset.beq
    rw [List.all_eq_true]
    intro k _
    rw [h]
    exact beq_self_eq_true _

/-- Witness for `fixed_eq_words_iff` at two fresh `FixedBitset<8>`. -/
theorem fixed_eq_words_iff_w :
    FixedBitset.bne 8 (FixedBitset.fresh 8) (FixedBitset.fresh 8) =
      !FixedBitset.beq 8 (FixedBitset.fresh 8) (FixedBitset.fresh 8) :=
  (fixed_eq_words_iff 8 (FixedBitset.fresh 8) (FixedBitset.fresh 8)
    (by decide) (by decide) (by decide) (by decide)).2.1
